import Mathlib

/-
Verification development for the SyncRepo repository (SRC.py and SyncRepo.py):
a live in-memory snapshot of a source tree's text files with debounced
regeneration of a consolidated Markdown document.

Modelling conventions of the shallow embedding:
* Filesystem paths are lists of components (`FsPath`); `os.path` operations
  (`join`, `relpath`, `basename`, `commonpath`) become list operations.
* The on-disk state seen by the change monitor is a function from absolute
  path to `DiskFile`: the file may be absent, present but unreadable (an
  `open`/`read`/decode exception), or readable with some content.
* The `RepositoryCache`'s `_file_cache` dict is an association list with
  unique keys (`Cache`); dict assignment replaces the entry in place,
  `del` removes it, preserving insertion order like a Python dict.
* Python string comparison (used by `sort()` / `sorted()`) is code-point
  lexicographic order, embedded as `strle` on the character lists.
* Wall-clock time is abstracted as `Nat`; `threading.Timer` objects become a
  pending deadline, and the debounced callback's invocations are recorded as
  the list of times at which the timer fired.
-/

namespace SyncRepo

/-! ## Strings: Python `str.endswith` and code-point lexicographic order -/

/-- Python `s.endswith(suffix)`: suffix match on the character sequence. -/
def endswith (s suffix : String) : Bool :=
  suffix.data.isSuffixOf s.data

/-- Code-point lexicographic comparison of character lists, as Python's
`<=` on strings computes it. -/
def leChars : List Char → List Char → Bool
  | [], _ => true
  | _ :: _, [] => false
  | a :: as, b :: bs =>
    if a.toNat < b.toNat then true
    else if b.toNat < a.toNat then false
    else leChars as bs

/-- Python string comparison `a <= b` (code-point lexicographic). -/
def strle (a b : String) : Bool := leChars a.data b.data

/-- The ordering relation used by Python's `sort()`/`sorted()` on strings. -/
def SLe (a b : String) : Prop := strle a b = true

instance : DecidableRel SLe :=
  fun a b => inferInstanceAs (Decidable (strle a b = true))

theorem leChars_total (a b : List Char) : leChars a b = true ∨ leChars b a = true := by
  induction a generalizing b with
  | nil => exact Or.inl rfl
  | cons x as ih =>
    cases b with
    | nil => exact Or.inr rfl
    | cons y bs =>
      by_cases hxy : x.toNat < y.toNat
      · exact Or.inl (by simp [leChars, hxy])
      · by_cases hyx : y.toNat < x.toNat
        · exact Or.inr (by simp [leChars, hyx])
        · rcases ih bs with h | h
          · exact Or.inl (by simp [leChars, hxy, hyx, h])
          · exact Or.inr (by simp [leChars, hxy, hyx, h])

theorem leChars_trans (a b c : List Char) (hab : leChars a b = true)
    (hbc : leChars b c = true) : leChars a c = true := by
  induction a generalizing b c with
  | nil => rfl
  | cons x as ih =>
    cases b with
    | nil => simp [leChars] at hab
    | cons y bs =>
      cases c with
      | nil => simp [leChars] at hbc
      | cons z cs =>
        simp only [leChars] at hab hbc ⊢
        by_cases hxy : x.toNat < y.toNat
        · by_cases hyz : y.toNat < z.toNat
          · simp [show x.toNat < z.toNat by omega]
          · by_cases hzy : z.toNat < y.toNat
            · simp [hyz, hzy] at hbc
            · simp [show x.toNat < z.toNat by omega]
        · by_cases hyx : y.toNat < x.toNat
          · simp [hxy, hyx] at hab
          · by_cases hyz : y.toNat < z.toNat
            · simp [show x.toNat < z.toNat by omega]
            · by_cases hzy : z.toNat < y.toNat
              · simp [hyz, hzy] at hbc
              · have hxz : ¬ x.toNat < z.toNat := by omega
                have hzx : ¬ z.toNat < x.toNat := by omega
                simp only [hxy, hyx, if_neg, ite_false] at hab
                simp only [hyz, hzy, if_neg, ite_false] at hbc
                simp [hxz, hzx, ih bs cs hab hbc]

instance : IsTotal String SLe := ⟨fun a b => leChars_total a.data b.data⟩

instance : IsTrans String SLe := ⟨fun _ _ _ h1 h2 => leChars_trans _ _ _ h1 h2⟩

/-- Ordering of `(name, payload)` pairs by name, as Python's list `sort()`
compares the strings being sorted. -/
def byName {β : Type} (a b : String × β) : Prop := SLe a.1 b.1

instance {β : Type} : DecidableRel (@byName β) :=
  fun a b => inferInstanceAs (Decidable (strle a.1 b.1 = true))

instance {β : Type} : IsTotal (String × β) byName :=
  ⟨fun a b => leChars_total a.1.data b.1.data⟩

instance {β : Type} : IsTrans (String × β) byName :=
  ⟨fun _ _ _ h1 h2 => leChars_trans _ _ _ h1 h2⟩

/-! ## Paths and the on-disk state -/

/-- A filesystem path, as its list of components. -/
abbrev FsPath := List String

/-- `os.path`-style rendering of a relative path: its components separated
by `/`, as `os.path.relpath` returns them on POSIX. -/
def joinPath : FsPath → String
  | [] => ""
  | [x] => x
  | x :: xs => x ++ "/" ++ joinPath xs

/-- The character-level join underlying `joinPath`. -/
def joinChars : List (List Char) → List Char
  | [] => []
  | [u] => u
  | u :: us => u ++ '/' :: joinChars us

/-- Split a character sequence at every `/`; for slash-free components this
is the inverse of `joinChars`. -/
def splitChars : List Char → List (List Char)
  | [] => [[]]
  | c :: cs =>
    if c = '/' then [] :: splitChars cs
    else
      match splitChars cs with
      | u :: us => (c :: u) :: us
      | [] => [[c]]

/-- The components of a rendered relative path: the string split at `/`. -/
def splitPath (s : String) : List String :=
  (splitChars s.data).map (fun u => { data := u })

/-- `os.path.basename`. -/
def basename (p : FsPath) : String := p.getLast?.getD ""

/-- `os.path.relpath(file_path, directory)` for a file below `directory`,
rendered as the cache key string. -/
def relKey (directory file_path : FsPath) : String :=
  joinPath (file_path.drop directory.length)

/-- `os.path.commonpath([a, b])`: longest common component prefix. -/
def commonPath : FsPath → FsPath → FsPath
  | a :: as, b :: bs => if a = b then a :: commonPath as bs else []
  | _, _ => []

/-- What the disk holds at a path when the monitor looks: nothing, a file
whose `open`/`read` raises (permission, decoding, race), or readable
content. -/
inductive DiskFile where
  | absent
  | unreadable
  | readable (content : String)
deriving DecidableEq

/-- The disk as seen through `os.path.exists` and `open`. -/
abbrev FileSys := FsPath → DiskFile

/-! ## RepositoryCache (SRC.py lines 12-77) -/

/-- `RepositoryCache._file_cache`: dict relative_path -> content. -/
abbrev Cache := List (String × String)

/-- Python dict assignment `d[k] = v`: replace the entry if the key is
present, append otherwise (insertion order preserved). -/
def storeEntry : Cache → String → String → Cache
  | [], k, v => [(k, v)]
  | e :: rest, k, v => if e.1 = k then (k, v) :: rest else e :: storeEntry rest k v

/-- `RepositoryCache.remove_file`: `if relative_path in self._file_cache:
del self._file_cache[relative_path]` — delete the entry if present, no-op
otherwise. -/
def remove_file : Cache → String → Cache
  | [], _ => []
  | e :: rest, p => if e.1 = p then rest else e :: remove_file rest p

/-- `RepositoryCache._read_and_store_file`: `open` + `read` inside
`try/except`; on success store the content, on any exception only log,
leaving the cache untouched. -/
def _read_and_store_file (fs : FileSys) (file_path : FsPath) (relative_path : String)
    (c : Cache) : Cache :=
  match fs file_path with
  | .readable content => storeEntry c relative_path content
  | _ => c

/-- `RepositoryCache.update_file`: if the file no longer exists, remove it
from the cache; otherwise read and store it. -/
def update_file (fs : FileSys) (file_path : FsPath) (relative_path : String)
    (c : Cache) : Cache :=
  match fs file_path with
  | .absent => remove_file c relative_path
  | _ => _read_and_store_file fs file_path relative_path c

/-- `RepositoryCache.get_all_files_sorted`: `sorted(self._file_cache.keys())`. -/
def get_all_files_sorted (c : Cache) : List String :=
  List.insertionSort SLe (c.map Prod.fst)

/-- `RepositoryCache.get_file_content`: `self._file_cache.get(relative_path, "")`. -/
def get_file_content (c : Cache) (relative_path : String) : String :=
  (c.lookup relative_path).getD ""

/-- `RepositoryCache._should_include`: sensitive-file block-list first, then
extension allow-list, then exclude-suffix list, then the optional regex
excludes (a regex is embedded as its match predicate on the filename). -/
def _should_include (filename : String) (extensions excludes sensitive_files : List String)
    (regex_patterns : List (String → Bool)) : Bool :=
  if filename ∈ sensitive_files then false
  else if ¬ extensions.any (fun ext => endswith filename ext) then false
  else if excludes.any (fun exc => endswith filename exc) then false
  else if regex_patterns.any (fun pattern => pattern filename) then false
  else true

/-! ## Snapshot renderer (SRC.py lines 92-108) -/

/-- The per-file block the spec's §6 document format describes: the marker
line `----- FILE: <relative_path> -----` immediately followed by a
backtick-fenced block holding the stored content verbatim. -/
def fileBlock (c : Cache) (relative_path : String) : String :=
  ("----- FILE: " ++ relative_path ++ " -----\n") ++
    ("```\n" ++ get_file_content c relative_path ++ "\n```\n\n")

/-- Concatenation of a list of rendered blocks. -/
def concatBlocks : List String → String
  | [] => ""
  | b :: bs => b ++ concatBlocks bs

/-- `generate_markdown_output`: the loop appends, per sorted relative path,
the marker line and then the fenced content, and wraps the result between
the TREE OUTPUT and CODE OUTPUT headers. -/
def generate_markdown_output (repo_cache : Cache) (directory : FsPath)
    (tree_output : String) : String :=
  let code_output :=
    (get_all_files_sorted repo_cache).foldl
      (fun acc relative_path =>
        acc ++ ("----- FILE: " ++ relative_path ++ " -----\n")
          ++ ("```\n" ++ get_file_content repo_cache relative_path ++ "\n```\n\n"))
      ""
  "========== TREE OUTPUT ==========\n" ++ tree_output ++
    "\n\n========== CODE OUTPUT ==========\n\n" ++ code_output

/-! ## Debouncer (SRC.py lines 144-168)

The timer is modelled by its scheduled deadline. `trigger` at time `now`
first cancels the current timer — if that timer's deadline has already
passed, the callback has already run at the deadline and the cancel is a
no-op, so the firing is recorded — and then starts a fresh timer due
`wait_time` after `now`. `allFires` lists every time the callback runs,
including the firing of the finally-pending timer. -/

structure Debouncer where
  wait_time : Nat
  /-- Deadline of the live `threading.Timer`, `none` before the first
  `trigger` (no callback occurs at construction). -/
  pending : Option Nat
  /-- Times at which the callback has run. -/
  fired : List Nat
deriving DecidableEq

/-- A fresh `Debouncer(wait_time, callback)`. -/
def Debouncer.init (wait_time : Nat) : Debouncer := ⟨wait_time, none, []⟩

/-- `Debouncer.trigger` called at time `now`: cancel the previous timer if
it has not yet fired (it fired already exactly when its deadline is at or
before `now`), then schedule the callback for `now + wait_time`. -/
def Debouncer.trigger (s : Debouncer) (now : Nat) : Debouncer :=
  let fired :=
    match s.pending with
    | some d => if d ≤ now then s.fired ++ [d] else s.fired
    | none => s.fired
  { s with pending := some (now + s.wait_time), fired := fired }

/-- Run a sequence of `trigger` calls at the given times. -/
def Debouncer.runTriggers (s : Debouncer) (ts : List Nat) : Debouncer :=
  ts.foldl Debouncer.trigger s

/-- All callback invocations of a run, the eventual firing of the last
scheduled timer included. -/
def Debouncer.allFires (s : Debouncer) : List Nat :=
  s.fired ++ (match s.pending with | some d => [d] | none => [])

/-! ## ChangeHandler (SRC.py lines 170-256)

The handler's effects on the shared state are the cache mutations and the
`Debouncer.trigger` calls; the state records the cache and how many
triggers have been issued. -/

structure FilterConfig where
  extensions : List String
  excludes : List String
  exclude_dirs : List String
  sensitive_files : List String
  regex_patterns : List (String → Bool)

structure HandlerState where
  cache : Cache
  triggers : Nat
deriving DecidableEq

/-- `ChangeHandler._is_relevant_file`: sensitive name, extension allow-list
and exclude suffixes on the bare filename; then for each excluded directory
name `ed`, reject when `os.path.commonpath([file_path, directory/ed])`
equals `directory/ed`; finally the regex excludes on the filename. -/
def _is_relevant_file (cfg : FilterConfig) (directory : FsPath) (file_path : FsPath) : Bool :=
  let file_name := basename file_path
  if file_name ∈ cfg.sensitive_files then false
  else if ¬ cfg.extensions.any (fun ext => endswith file_name ext) then false
  else if cfg.excludes.any (fun exc => endswith file_name exc) then false
  else if cfg.exclude_dirs.any
      (fun ed => commonPath file_path (directory ++ [ed]) = directory ++ [ed]) then false
  else if cfg.regex_patterns.any (fun pattern => pattern file_name) then false
  else true

/-- `ChangeHandler._handle_change`: resolve the relative path, update the
cache from disk when the file still exists, and always trigger the
debouncer. -/
def _handle_change (fs : FileSys) (directory : FsPath) (s : HandlerState)
    (file_path : FsPath) : HandlerState :=
  let rel_path := relKey directory file_path
  let cache :=
    match fs file_path with
    | .absent => s.cache
    | _ => update_file fs file_path rel_path s.cache
  { cache := cache, triggers := s.triggers + 1 }

/-- `ChangeHandler.on_created`. -/
def on_created (cfg : FilterConfig) (fs : FileSys) (directory : FsPath)
    (is_directory : Bool) (src_path : FsPath) (s : HandlerState) : HandlerState :=
  if !is_directory && _is_relevant_file cfg directory src_path then
    _handle_change fs directory s src_path
  else s

/-- `ChangeHandler.on_modified`. -/
def on_modified (cfg : FilterConfig) (fs : FileSys) (directory : FsPath)
    (is_directory : Bool) (src_path : FsPath) (s : HandlerState) : HandlerState :=
  if !is_directory && _is_relevant_file cfg directory src_path then
    _handle_change fs directory s src_path
  else s

/-- `ChangeHandler.on_deleted`: remove from the cache, then trigger. -/
def on_deleted (cfg : FilterConfig) (directory : FsPath)
    (is_directory : Bool) (src_path : FsPath) (s : HandlerState) : HandlerState :=
  if !is_directory && _is_relevant_file cfg directory src_path then
    { cache := remove_file s.cache (relKey directory src_path),
      triggers := s.triggers + 1 }
  else s

/-- `ChangeHandler.on_moved` (a `FileSystemMovedEvent` with `src_path` and
`dest_path`): if the old path was relevant, remove its entry; if the new
path is relevant, run `_handle_change` on it (which triggers). -/
def on_moved (cfg : FilterConfig) (fs : FileSys) (directory : FsPath)
    (is_directory : Bool) (src_path dest_path : FsPath) (s : HandlerState) : HandlerState :=
  if is_directory then s
  else
    let s1 :=
      if _is_relevant_file cfg directory src_path then
        { s with cache := remove_file s.cache (relKey directory src_path) }
      else s
    if _is_relevant_file cfg directory dest_path then
      _handle_change fs directory s1 dest_path
    else s1

/-! ## The initial scan (SRC.py lines 20-31)

`load_initial_cache` walks a directory tree with `os.walk` in top-down
mode: each visited directory yields `(root, dirs, files)`, the handler
prunes `dirs` in place to the non-excluded names and sorts `dirs` and
`files`, and `os.walk` then descends only into the kept directories, in
the mutated (sorted) order. A directory tree is a nested inductive; a file
carries `some content` when readable and `none` when reading it raises. -/

mutual
/-- A directory: its subdirectories and its files (a file carries
`some content` when readable, `none` when reading it raises). -/
inductive FSTree where
  | node (dirs : FSForest) (files : List (String × Option String))
/-- The named subdirectories of a directory (a list of name/tree pairs,
spelled out as a mutual inductive so all recursion stays structural). -/
inductive FSForest where
  | nil
  | cons (name : String) (tree : FSTree) (rest : FSForest)
end

/-- A forest as the list of `(name, subtree)` pairs `os.walk` sees in
`dirs`. -/
def FSForest.toList : FSForest → List (String × FSTree)
  | .nil => []
  | .cons name tree rest => (name, tree) :: rest.toList

mutual
/-- Number of directory nodes of a tree (only used as recursion fuel for
the walk). -/
def FSTree.size : FSTree → Nat
  | .node dirs _ => dirs.size + 1
def FSForest.size : FSForest → Nat
  | .nil => 0
  | .cons _ tree rest => tree.size + rest.size
end

mutual
/-- No directory or file name anywhere in the tree contains a `/` —
always true of the names a real filesystem hands to `os.walk`, and what
makes the rendered relative path's components recoverable by `splitPath`. -/
def FSTree.slashFree : FSTree → Bool
  | .node dirs files =>
    dirs.slashFree && files.all (fun f => !f.1.data.contains '/')
def FSForest.slashFree : FSForest → Bool
  | .nil => true
  | .cons name tree rest =>
    !name.data.contains '/' && tree.slashFree && rest.slashFree
end

/-- One `os.walk` yield: the visited directory (relative components), its
kept subdirectory names, and its files, both already sorted. -/
abbrev WalkYield := FsPath × List String × List (String × Option String)

/-- `dirs[:] = [d for d in dirs if d not in exclude_dirs]` then
`dirs.sort()`. -/
def keptDirs (excl : List String) (dirs : FSForest) : List (String × FSTree) :=
  List.insertionSort byName (dirs.toList.filter (fun d => d.1 ∉ excl))

/-- The `os.walk` traversal, recursing on explicit fuel (the walk descends
only into subtrees, so `FSTree.size` fuel never runs out — the
fuel-irrelevance lemma below makes this exact). -/
def walkAux (excl : List String) : Nat → FsPath → FSTree → List WalkYield
  | 0, _, _ => []
  | fuel + 1, pre, .node dirs files =>
    let kept := keptDirs excl dirs
    (pre, kept.map Prod.fst, List.insertionSort byName files)
      :: (kept.map (fun d => walkAux excl fuel (pre ++ [d.1]) d.2)).flatten

/-- `os.walk(directory)` with the handler's in-place pruning and sorting,
yielding paths relative to the scan root. -/
def osWalk (excl : List String) (t : FSTree) : List WalkYield :=
  walkAux excl t.size [] t

/-- The body of the scan's inner loop: `if self._should_include(file, ...)`
then `_read_and_store_file(file_path, relative_path)` — store the content
when the read succeeds, only log when it raises. -/
def scanFile (cfg : FilterConfig) (pre : FsPath) (c : Cache)
    (f : String × Option String) : Cache :=
  if _should_include f.1 cfg.extensions cfg.excludes cfg.sensitive_files
      cfg.regex_patterns then
    match f.2 with
    | some content => storeEntry c (joinPath (pre ++ [f.1])) content
    | none => c
  else c

/-- `RepositoryCache.load_initial_cache`: `self._file_cache.clear()` (the
prior cache is discarded), then the pruned, sorted walk stores every
included readable file keyed by its relative path. -/
def load_initial_cache (_prior : Cache) (tree : FSTree) (cfg : FilterConfig) : Cache :=
  (osWalk cfg.exclude_dirs tree).foldl
    (fun c y => y.2.2.foldl (scanFile cfg y.1) c) []

/-! ## SyncRepo.py's ChangeHandler (lines 87-105)

The second implementation has no cache and no timer: `on_any_event`
compares the event's wall-clock time against `last_update` and either
discards the event or rebuilds immediately (recorded by its time) and
resets `last_update`. -/

structure SyncRepoHandler where
  debounce_time : Nat
  last_update : Nat
  /-- Times at which `update_code_base` ran from the event handler. -/
  rebuilds : List Nat
deriving DecidableEq

/-- `ChangeHandler.__init__` of SyncRepo.py: `self.debounce_time = 5`,
`self.last_update = time.time()`. -/
def SyncRepoHandler.init (now : Nat) : SyncRepoHandler :=
  { debounce_time := 5, last_update := now, rebuilds := [] }

/-- `ChangeHandler.on_any_event` of SyncRepo.py at event time `t`. -/
def SyncRepoHandler.on_any_event (s : SyncRepoHandler) (t : Nat) : SyncRepoHandler :=
  if t - s.last_update < s.debounce_time then s
  else { s with last_update := t, rebuilds := s.rebuilds ++ [t] }

/-! # Theorems -/

/-! ## Cache helper lemmas -/

theorem remove_file_of_not_mem :
    ∀ (c : Cache) (p : String), p ∉ c.map Prod.fst → remove_file c p = c := by
  intro c p h
  induction c with
  | nil => rfl
  | cons e rest ih =>
    simp only [List.map_cons, List.mem_cons, not_or] at h
    have hne : ¬ e.1 = p := fun he => h.1 he.symm
    simp only [remove_file, if_neg hne, ih h.2]

theorem not_mem_keys_remove_file :
    ∀ (c : Cache) (p : String), (c.map Prod.fst).Nodup →
      p ∉ (remove_file c p).map Prod.fst := by
  intro c p h
  induction c with
  | nil => simp [remove_file]
  | cons e rest ih =>
    rw [List.map_cons, List.nodup_cons] at h
    by_cases he : e.1 = p
    · simp only [remove_file, if_pos he]
      rw [← he]
      exact h.1
    · simp only [remove_file, if_neg he, List.map_cons, List.mem_cons, not_or]
      exact ⟨fun hp => he hp.symm, ih h.2⟩

theorem keys_storeEntry :
    ∀ (c : Cache) (k v x : String),
      x ∈ (storeEntry c k v).map Prod.fst → x ∈ c.map Prod.fst ∨ x = k := by
  intro c k v x h
  induction c with
  | nil => simpa [storeEntry] using h
  | cons e rest ih =>
    by_cases he : e.1 = k
    · simp only [storeEntry, if_pos he, List.map_cons, List.mem_cons] at h
      rcases h with h | h
      · exact Or.inr h
      · exact Or.inl (by simp [h])
    · simp only [storeEntry, if_neg he, List.map_cons, List.mem_cons] at h
      rcases h with h | h
      · exact Or.inl (by simp [h])
      · rcases ih h with h' | h'
        · exact Or.inl (by simp [h'])
        · exact Or.inr h'

/-! ## C8 and C9 -/

/-- C8: for every filename in the sensitive-files list, both inclusion
filters (`RepositoryCache._should_include` on the filename, and
`ChangeHandler._is_relevant_file` on the path's basename) return false
regardless of every other rule. -/
theorem C8_sensitive_always_excluded :
    (∀ (filename : String) (extensions excludes sensitive_files : List String)
        (regex_patterns : List (String → Bool)),
        filename ∈ sensitive_files →
        _should_include filename extensions excludes sensitive_files regex_patterns = false)
    ∧ (∀ (cfg : FilterConfig) (directory file_path : FsPath),
        basename file_path ∈ cfg.sensitive_files →
        _is_relevant_file cfg directory file_path = false) := by
  constructor
  · intro filename extensions excludes sensitive_files regex_patterns h
    simp [_should_include, h]
  · intro cfg directory file_path h
    simp [_is_relevant_file, h]

/-- Witness for C8: `.env` is rejected by both filters even though the
extension allow-list matches it. -/
theorem C8_sensitive_always_excluded_witness :
    _should_include ".env" [".env"] [] [".env"] [] = false
    ∧ _is_relevant_file ⟨[".env"], [], [], [".env"], []⟩ ["r"] ["r", ".env"] = false :=
  ⟨C8_sensitive_always_excluded.1 ".env" [".env"] [] [".env"] [] (by decide),
   C8_sensitive_always_excluded.2 ⟨[".env"], [], [], [".env"], []⟩ ["r"] ["r", ".env"]
     (by decide)⟩

/-- C9: on any cache state (a dict, so its keys are distinct), removing an
absent path leaves the mapping exactly unchanged, and removing a path twice
equals removing it once; `remove_file` is total, so no error is raised. -/
theorem C9_remove_idempotent :
    ∀ (c : Cache) (p : String), (c.map Prod.fst).Nodup →
      (p ∉ c.map Prod.fst → remove_file c p = c)
      ∧ remove_file (remove_file c p) p = remove_file c p := by
  intro c p h
  exact ⟨remove_file_of_not_mem c p,
    remove_file_of_not_mem _ p (not_mem_keys_remove_file c p h)⟩

/-- Witness for C9: removing a never-present key is a no-op, and a double
removal equals a single one. -/
theorem C9_remove_idempotent_witness :
    remove_file [("a.js", "x")] "zzz" = [("a.js", "x")]
    ∧ remove_file (remove_file [("a.js", "x")] "a.js") "a.js"
        = remove_file [("a.js", "x")] "a.js" :=
  ⟨(C9_remove_idempotent [("a.js", "x")] "zzz" (by decide)).1 (by decide),
   (C9_remove_idempotent [("a.js", "x")] "a.js" (by decide)).2⟩

/-! ## C2: a failing read during `update_file` -/

/-- C2 counterexample: the file exists but reading it raises
(`DiskFile.unreadable`); after `update_file` the cache still contains the
previously stored entry for that relative path — the claim said it would
contain no entry. -/
theorem C2_stale_entry_counterexample :
    (fun _ => DiskFile.unreadable : FileSys) ["r", "a.js"] = DiskFile.unreadable
    ∧ (update_file (fun _ => DiskFile.unreadable) ["r", "a.js"] "a.js"
        [("a.js", "old")]).lookup "a.js" = some "old" :=
  ⟨rfl, by decide⟩

/-- C2 (amended): when the read of an existing file fails, `update_file`
leaves the cache exactly unchanged — a never-stored path stays absent, but
a previously stored entry remains (stale); the error is only logged. -/
theorem C2_unreadable_leaves_cache_unchanged :
    ∀ (fs : FileSys) (file_path : FsPath) (relative_path : String) (c : Cache),
      fs file_path = DiskFile.unreadable →
      update_file fs file_path relative_path c = c := by
  intro fs file_path relative_path c h
  simp [update_file, _read_and_store_file, h]

/-- Witness for the amended C2. -/
theorem C2_unreadable_leaves_cache_unchanged_witness :
    update_file (fun _ => DiskFile.unreadable) ["r", "a.js"] "a.js" [("a.js", "old")]
      = [("a.js", "old")] :=
  C2_unreadable_leaves_cache_unchanged (fun _ => DiskFile.unreadable) ["r", "a.js"]
    "a.js" [("a.js", "old")] rfl

/-! ## C4: the monitor's excluded-directory check -/

/-- C4 counterexample: with excluded directory `test`, the path
`r/a/test/f.js` (the excluded name one level below the scan root `r`)
passes `_is_relevant_file` — the claim said any-depth occurrences are
rejected. -/
theorem C4_deep_excluded_dir_counterexample :
    _is_relevant_file ⟨[".js"], [], ["test"], [], []⟩ ["r"]
      ["r", "a", "test", "f.js"] = true := by
  decide

/-- C4 (amended): the monitor's filter rejects every path lying under
`<root>/<name>` for a listed excluded-directory name — containment computed
by `os.path.commonpath` against the scan root, i.e. the ancestor-of
relation on components, never substring search (a top-level directory named
`mytest-data` is not excluded by a rule for `test`) — but a listed name
occurring deeper than directly under the root is not rejected. -/
theorem C4_exclude_dirs_top_level_containment :
    (∀ (cfg : FilterConfig) (directory file_path : FsPath),
      (∃ ed ∈ cfg.exclude_dirs,
        commonPath file_path (directory ++ [ed]) = directory ++ [ed]) →
      _is_relevant_file cfg directory file_path = false)
    ∧ _is_relevant_file ⟨[".js"], [], ["test"], [], []⟩ ["r"]
        ["r", "mytest-data", "f.js"] = true := by
  constructor
  · intro cfg directory file_path h
    obtain ⟨ed, hed, hcp⟩ := h
    have hany : cfg.exclude_dirs.any
        (fun ed => commonPath file_path (directory ++ [ed]) = directory ++ [ed]) = true :=
      List.any_eq_true.mpr ⟨ed, hed, by simp [hcp]⟩
    simp only [_is_relevant_file, hany]
    split
    · rfl
    · split
      · rfl
      · split
        · rfl
        · simp
  · decide

/-- Witness for the amended C4: `r/test/f.js` is rejected. -/
theorem C4_exclude_dirs_top_level_containment_witness :
    _is_relevant_file ⟨[".js"], [], ["test"], [], []⟩ ["r"] ["r", "test", "f.js"] = false :=
  C4_exclude_dirs_top_level_containment.1 ⟨[".js"], [], ["test"], [], []⟩ ["r"]
    ["r", "test", "f.js"] (by decide)

/-! ## C6: the initial scan prunes excluded directories at descent -/

theorem size_le_of_mem_toList : ∀ (f : FSForest) (d : String × FSTree),
    d ∈ f.toList → d.2.size ≤ f.size
  | .nil, d, h => by simp [FSForest.toList] at h
  | .cons name tree rest, d, h => by
    simp only [FSForest.toList, List.mem_cons] at h
    rcases h with rfl | h
    · simp only [FSForest.size]
      omega
    · have := size_le_of_mem_toList rest d h
      simp only [FSForest.size]
      omega

theorem mem_keptDirs {excl : List String} {dirs : FSForest} {d : String × FSTree}
    (h : d ∈ keptDirs excl dirs) : d ∈ dirs.toList ∧ d.1 ∉ excl := by
  rw [keptDirs, List.mem_insertionSort, List.mem_filter] at h
  exact ⟨h.1, by simpa using h.2⟩

theorem walkAux_fuel (excl : List String) :
    ∀ (fuel₁ fuel₂ : Nat) (pre : FsPath) (t : FSTree),
      t.size ≤ fuel₁ → t.size ≤ fuel₂ →
      walkAux excl fuel₁ pre t = walkAux excl fuel₂ pre t := by
  intro fuel₁
  induction fuel₁ with
  | zero =>
    intro fuel₂ pre t h1 h2
    cases t with
    | node dirs files => simp only [FSTree.size] at h1; omega
  | succ m ih =>
    intro fuel₂ pre t h1 h2
    cases t with
    | node dirs files =>
      cases fuel₂ with
      | zero => simp only [FSTree.size] at h2; omega
      | succ k =>
        simp only [walkAux]
        congr 1
        congr 1
        apply List.map_congr_left
        intro d hd
        have hsz := size_le_of_mem_toList dirs d (mem_keptDirs hd).1
        simp only [FSTree.size] at h1 h2
        exact ih k (pre ++ [d.1]) d.2 (by omega) (by omega)

theorem splitChars_of_no_slash :
    ∀ (u : List Char), u.contains '/' = false → splitChars u = [u] := by
  intro u
  induction u with
  | nil => intro _; rfl
  | cons c cs ih =>
    intro h
    simp only [List.contains_cons, Bool.or_eq_false_iff, beq_eq_false_iff_ne] at h
    have hc : ¬ c = '/' := fun he => h.1 he.symm
    simp only [splitChars, if_neg hc, ih h.2]

theorem splitChars_append_slash :
    ∀ (u rest : List Char), u.contains '/' = false →
      splitChars (u ++ '/' :: rest) = u :: splitChars rest := by
  intro u rest
  induction u with
  | nil => intro _; simp [splitChars]
  | cons c cs ih =>
    intro h
    simp only [List.contains_cons, Bool.or_eq_false_iff, beq_eq_false_iff_ne] at h
    have hc : ¬ c = '/' := fun he => h.1 he.symm
    simp only [List.cons_append, splitChars, if_neg hc, List.append_eq, ih h.2]

theorem splitChars_joinChars :
    ∀ (comps : List (List Char)), comps ≠ [] →
      (∀ u ∈ comps, u.contains '/' = false) →
      splitChars (joinChars comps) = comps := by
  intro comps
  induction comps with
  | nil => intro h _; exact absurd rfl h
  | cons u us ih =>
    intro _ hall
    cases us with
    | nil => exact splitChars_of_no_slash u (hall u (by simp))
    | cons v vs =>
      have hj : joinChars (u :: v :: vs) = u ++ '/' :: joinChars (v :: vs) := rfl
      rw [hj, splitChars_append_slash u _ (hall u (by simp)),
        ih (by simp) (fun w hw => hall w (by simp [hw]))]

theorem joinPath_data :
    ∀ (comps : List String),
      (joinPath comps).data = joinChars (comps.map String.data) := by
  intro comps
  induction comps with
  | nil => rfl
  | cons x xs ih =>
    cases xs with
    | nil => rfl
    | cons y ys =>
      have hj : joinPath (x :: y :: ys) = x ++ "/" ++ joinPath (y :: ys) := rfl
      have hc : joinChars ((x :: y :: ys).map String.data)
          = x.data ++ '/' :: joinChars ((y :: ys).map String.data) := rfl
      rw [hj, hc, ← ih]
      have hx : (x ++ "/" ++ joinPath (y :: ys)).data
          = x.data ++ ['/'] ++ (joinPath (y :: ys)).data := rfl
      rw [hx, List.append_assoc]
      rfl

theorem splitPath_joinPath :
    ∀ (comps : List String), comps ≠ [] →
      (∀ u ∈ comps, u.data.contains '/' = false) →
      splitPath (joinPath comps) = comps := by
  intro comps hne hall
  unfold splitPath
  rw [joinPath_data,
    splitChars_joinChars (comps.map String.data) (by simpa using hne)
      (by
        intro u hu
        rw [List.mem_map] at hu
        obtain ⟨s, hs, rfl⟩ := hu
        exact hall s hs),
    List.map_map]
  exact List.map_id comps

theorem slashFree_of_mem_toList : ∀ (f : FSForest) (d : String × FSTree),
    d ∈ f.toList → f.slashFree = true →
    d.1.data.contains '/' = false ∧ d.2.slashFree = true
  | .nil, d, h, _ => by simp [FSForest.toList] at h
  | .cons name tree rest, d, h, hsf => by
    simp only [FSForest.toList, List.mem_cons] at h
    simp only [FSForest.slashFree, Bool.and_eq_true, Bool.not_eq_true'] at hsf
    rcases h with rfl | h
    · exact ⟨hsf.1.1, hsf.1.2⟩
    · exact slashFree_of_mem_toList rest d h hsf.2

theorem walkAux_yield_clean (excl : List String) :
    ∀ (fuel : Nat) (pre : FsPath) (t : FSTree) (y : WalkYield),
      t.slashFree = true →
      y ∈ walkAux excl fuel pre t →
      ∃ suffix, y.1 = pre ++ suffix
        ∧ (∀ comp ∈ suffix, comp ∉ excl ∧ comp.data.contains '/' = false)
        ∧ ∀ f ∈ y.2.2, f.1.data.contains '/' = false := by
  intro fuel
  induction fuel with
  | zero => intro pre t y _ h; simp [walkAux] at h
  | succ m ih =>
    intro pre t y hsf h
    cases t with
    | node dirs files =>
      simp only [FSTree.slashFree, Bool.and_eq_true] at hsf
      simp only [walkAux, List.mem_cons] at h
      rcases h with rfl | h
      · refine ⟨[], by simp, by simp, ?_⟩
        intro f hf
        rw [List.mem_insertionSort] at hf
        have := List.all_eq_true.mp hsf.2 f hf
        simpa using this
      · rw [List.mem_flatten] at h
        obtain ⟨l, hl, hyl⟩ := h
        rw [List.mem_map] at hl
        obtain ⟨d, hd, rfl⟩ := hl
        have hmem := mem_keptDirs hd
        have hdsf := slashFree_of_mem_toList dirs d hmem.1 hsf.1
        obtain ⟨suffix, hsuffix, hcomp, hfiles⟩ := ih (pre ++ [d.1]) d.2 y hdsf.2 hyl
        refine ⟨d.1 :: suffix, ?_, ?_, hfiles⟩
        · rw [hsuffix]; simp
        · intro comp hc
          rcases List.mem_cons.mp hc with rfl | hc
          · exact ⟨hmem.2, hdsf.1⟩
          · exact hcomp comp hc

theorem walkAux_yield_sorted (excl : List String) :
    ∀ (fuel : Nat) (pre : FsPath) (t : FSTree) (y : WalkYield),
      y ∈ walkAux excl fuel pre t →
      (∀ d ∈ y.2.1, d ∉ excl)
      ∧ List.Sorted SLe y.2.1
      ∧ List.Sorted SLe (y.2.2.map Prod.fst) := by
  intro fuel
  induction fuel with
  | zero => intro pre t y h; simp [walkAux] at h
  | succ m ih =>
    intro pre t y h
    cases t with
    | node dirs files =>
      simp only [walkAux, List.mem_cons] at h
      rcases h with rfl | h
      · have hkept : List.Sorted byName (keptDirs excl dirs) :=
          List.sorted_insertionSort byName _
        have hfiles : List.Sorted byName (List.insertionSort byName files) :=
          List.sorted_insertionSort byName _
        refine ⟨?_, ?_, ?_⟩
        · intro d hd
          rw [List.mem_map] at hd
          obtain ⟨e, he, rfl⟩ := hd
          exact (mem_keptDirs he).2
        · exact List.pairwise_map.mpr hkept
        · exact List.pairwise_map.mpr hfiles
      · rw [List.mem_flatten] at h
        obtain ⟨l, hl, hyl⟩ := h
        rw [List.mem_map] at hl
        obtain ⟨d, _, rfl⟩ := hl
        exact ih (pre ++ [d.1]) d.2 y hyl

theorem keys_scanFile (cfg : FilterConfig) (pre : FsPath) :
    ∀ (c : Cache) (f : String × Option String) (x : String),
      x ∈ (scanFile cfg pre c f).map Prod.fst →
      x ∈ c.map Prod.fst ∨ x = joinPath (pre ++ [f.1]) := by
  intro c f x h
  unfold scanFile at h
  split at h
  · split at h
    · exact keys_storeEntry c _ _ x h
    · exact Or.inl h
  · exact Or.inl h

theorem keys_scanFold (cfg : FilterConfig) (pre : FsPath) :
    ∀ (files : List (String × Option String)) (c : Cache) (x : String),
      x ∈ (files.foldl (scanFile cfg pre) c).map Prod.fst →
      x ∈ c.map Prod.fst ∨ ∃ f ∈ files, x = joinPath (pre ++ [f.1]) := by
  intro files
  induction files with
  | nil => intro c x h; exact Or.inl h
  | cons f fs ih =>
    intro c x h
    rw [List.foldl_cons] at h
    rcases ih _ x h with h' | ⟨g, hg, hx⟩
    · rcases keys_scanFile cfg pre c f x h' with h'' | h''
      · exact Or.inl h''
      · exact Or.inr ⟨f, by simp, h''⟩
    · exact Or.inr ⟨g, by simp [hg], hx⟩

theorem keys_walkFold (cfg : FilterConfig) :
    ∀ (ys : List WalkYield) (c : Cache) (x : String),
      x ∈ (ys.foldl (fun c y => y.2.2.foldl (scanFile cfg y.1) c) c).map Prod.fst →
      x ∈ c.map Prod.fst ∨ ∃ y ∈ ys, ∃ f ∈ y.2.2, x = joinPath (y.1 ++ [f.1]) := by
  intro ys
  induction ys with
  | nil => intro c x h; exact Or.inl h
  | cons y ys ih =>
    intro c x h
    rw [List.foldl_cons] at h
    rcases ih _ x h with h' | ⟨z, hz, f, hf, hx⟩
    · rcases keys_scanFold cfg y.1 y.2.2 c x h' with h'' | ⟨f, hf, hx⟩
      · exact Or.inl h''
      · exact Or.inr ⟨y, by simp, f, hf, hx⟩
    · exact Or.inr ⟨z, by simp [hz], f, hf, hx⟩

/-- C6: `load_initial_cache` discards the prior cache entirely (two scans
of the same tree from different prior states agree); on a tree whose names
are slash-free (as a real filesystem guarantees), no produced cache key
lies under an excluded directory: splitting the key at `/`, none of its
directory components (all components but the last) is an excluded
directory name, even when the file's own name matches the extension
allow-list — subtrees under a listed name are pruned at the point of
descent, so their files are never visited; every `os.walk` yield lists its
kept subdirectories and its files in ascending lexicographic order; and
the walk's fuel is irrelevant once it covers the tree, so the traversal is
total. -/
theorem C6_load_initial_pruning :
    ∀ (prior₁ prior₂ : Cache) (tree : FSTree) (cfg : FilterConfig),
      load_initial_cache prior₁ tree cfg = load_initial_cache prior₂ tree cfg
      ∧ (tree.slashFree = true →
          ∀ x, x ∈ (load_initial_cache prior₁ tree cfg).map Prod.fst →
            ∀ comp ∈ (splitPath x).dropLast, comp ∉ cfg.exclude_dirs)
      ∧ (∀ y ∈ osWalk cfg.exclude_dirs tree,
          (∀ d ∈ y.2.1, d ∉ cfg.exclude_dirs)
          ∧ List.Sorted SLe y.2.1
          ∧ List.Sorted SLe (y.2.2.map Prod.fst))
      ∧ (∀ fuel, tree.size ≤ fuel →
          walkAux cfg.exclude_dirs fuel [] tree = osWalk cfg.exclude_dirs tree) := by
  intro prior₁ prior₂ tree cfg
  refine ⟨rfl, ?_, ?_, ?_⟩
  · intro hsf x hx
    unfold load_initial_cache at hx
    rcases keys_walkFold cfg _ [] x hx with h | ⟨y, hy, f, hf, hx'⟩
    · simp at h
    · obtain ⟨suffix, hsuffix, hcomp, hfiles⟩ :=
        walkAux_yield_clean cfg.exclude_dirs tree.size [] tree y hsf hy
      have hyp : y.1 = suffix := by simpa using hsuffix
      have hsplit : splitPath x = suffix ++ [f.1] := by
        rw [hx', hyp]
        apply splitPath_joinPath
        · simp
        · intro u hu
          rcases List.mem_append.mp hu with hu | hu
          · exact (hcomp u hu).2
          · rw [List.mem_singleton] at hu
            rw [hu]
            exact hfiles f hf
      intro comp hc
      rw [hsplit, List.dropLast_concat] at hc
      exact (hcomp comp hc).1
  · intro y hy
    exact walkAux_yield_sorted cfg.exclude_dirs tree.size [] tree y hy
  · intro fuel hfuel
    exact walkAux_fuel cfg.exclude_dirs fuel tree.size [] tree hfuel (le_refl _)

/-- Witness for C6: in a slash-free tree with an excluded `test` directory
next to a kept `srcd` directory, the key `srcd/a.js` is in the loaded
cache and none of its directory components is an excluded name. -/
theorem C6_load_initial_pruning_witness :
    ∀ comp ∈ (splitPath "srcd/a.js").dropLast, comp ∉ (["test"] : List String) :=
  (C6_load_initial_pruning [("zzz", "old")] []
    (FSTree.node
      (.cons "test" (.node .nil [("t.js", some "T")])
        (.cons "srcd" (.node .nil [("a.js", some "A")]) .nil))
      [("b.js", some "B")])
    ⟨[".js"], [], ["test"], [], []⟩).2.1 (by decide) "srcd/a.js" (by decide)

/-! ## C1: moved events -/

/-- C1 counterexample: a move from the in-scope path `r/a.js` to the
out-of-scope path `r/a.bak` has one side in-scope, yet `on_moved` issues
zero `Debouncer.trigger` calls — the claim said exactly one. -/
theorem C1_moved_counterexample :
    _is_relevant_file ⟨[".js"], [], ["test"], [], []⟩ ["r"] ["r", "a.js"] = true
    ∧ (on_moved ⟨[".js"], [], ["test"], [], []⟩ (fun _ => DiskFile.absent) ["r"] false
        ["r", "a.js"] ["r", "a.bak"] ⟨[("a.js", "x")], 0⟩).triggers = 0 :=
  ⟨by decide, by decide⟩

/-- C1 (amended): for every moved-file event, the monitor removes the
source's relative-path entry when the source passes the Path Filter and
upserts the destination (from its new location, when it is still readable)
when the destination passes; `Debouncer.trigger` is called exactly once
when the destination is in-scope and zero times when it is not — in
particular, a move from an in-scope path to an out-of-scope path removes
the entry without triggering any rebuild. -/
theorem C1_moved_amended :
    ∀ (cfg : FilterConfig) (fs : FileSys) (directory src_path dest_path : FsPath)
      (s : HandlerState),
      ((on_moved cfg fs directory false src_path dest_path s).triggers
        = s.triggers + (if _is_relevant_file cfg directory dest_path then 1 else 0))
      ∧ (_is_relevant_file cfg directory src_path = true →
          _is_relevant_file cfg directory dest_path = false →
          on_moved cfg fs directory false src_path dest_path s
            = { cache := remove_file s.cache (relKey directory src_path),
                triggers := s.triggers })
      ∧ (_is_relevant_file cfg directory src_path = false →
          _is_relevant_file cfg directory dest_path = false →
          on_moved cfg fs directory false src_path dest_path s = s)
      ∧ (∀ content, _is_relevant_file cfg directory src_path = true →
          _is_relevant_file cfg directory dest_path = true →
          fs dest_path = DiskFile.readable content →
          on_moved cfg fs directory false src_path dest_path s
            = { cache := storeEntry (remove_file s.cache (relKey directory src_path))
                  (relKey directory dest_path) content,
                triggers := s.triggers + 1 })
      ∧ (∀ content, _is_relevant_file cfg directory src_path = false →
          _is_relevant_file cfg directory dest_path = true →
          fs dest_path = DiskFile.readable content →
          on_moved cfg fs directory false src_path dest_path s
            = { cache := storeEntry s.cache (relKey directory dest_path) content,
                triggers := s.triggers + 1 }) := by
  intro cfg fs directory src_path dest_path s
  refine ⟨?_, ?_, ?_, ?_, ?_⟩
  · by_cases ho : _is_relevant_file cfg directory src_path = true <;>
      by_cases hn : _is_relevant_file cfg directory dest_path = true <;>
      simp [on_moved, _handle_change, ho, hn]
  · intro ho hn
    simp [on_moved, _handle_change, ho, hn]
  · intro ho hn
    simp [on_moved, _handle_change, ho, hn]
  · intro content ho hn hr
    simp [on_moved, _handle_change, update_file, _read_and_store_file, ho, hn, hr]
  · intro content ho hn hr
    simp [on_moved, _handle_change, update_file, _read_and_store_file, ho, hn, hr]

/-- Witness for the amended C1: the in-scope-to-out-of-scope move removes
the entry and leaves the trigger count at zero. -/
theorem C1_moved_witness :
    on_moved ⟨[".js"], [], ["test"], [], []⟩ (fun _ => DiskFile.absent) ["r"] false
      ["r", "a.js"] ["r", "a.bak"] ⟨[("a.js", "x")], 0⟩
      = { cache := remove_file [("a.js", "x")] (relKey ["r"] ["r", "a.js"]),
          triggers := 0 } :=
  (C1_moved_amended ⟨[".js"], [], ["test"], [], []⟩ (fun _ => DiskFile.absent) ["r"]
    ["r", "a.js"] ["r", "a.bak"] ⟨[("a.js", "x")], 0⟩).2.1 (by decide) (by decide)

/-! ## C3: created and modified events -/

/-- C3 counterexample: a modified event for the in-scope path `r/a.js`
that has meanwhile disappeared from disk leaves the previously cached
entry for `a.js` in place — the claim said the cache would hold no entry
for that relative path. -/
theorem C3_modified_counterexample :
    _is_relevant_file ⟨[".js"], [], ["test"], [], []⟩ ["r"] ["r", "a.js"] = true
    ∧ (fun _ => DiskFile.absent : FileSys) ["r", "a.js"] = DiskFile.absent
    ∧ ((on_modified ⟨[".js"], [], ["test"], [], []⟩ (fun _ => DiskFile.absent) ["r"] false
        ["r", "a.js"] ⟨[("a.js", "old")], 0⟩).cache).lookup "a.js" = some "old" :=
  ⟨by decide, rfl, by decide⟩

/-- C3 (amended): for every created or modified file event whose path
passes the Path Filter (`on_created` and `on_modified` behave
identically), the monitor always calls `Debouncer.trigger`, but calls
`Cache.upsert` only when the file still exists on disk at handling time;
an event for a path that has meanwhile disappeared leaves the cache
unchanged, so a previously cached entry for that relative path persists. -/
theorem C3_modified_amended :
    ∀ (cfg : FilterConfig) (fs : FileSys) (directory src_path : FsPath)
      (s : HandlerState),
      (∀ b, on_created cfg fs directory b src_path s
        = on_modified cfg fs directory b src_path s)
      ∧ (_is_relevant_file cfg directory src_path = true →
          ((on_modified cfg fs directory false src_path s).triggers = s.triggers + 1
          ∧ (fs src_path = DiskFile.absent →
              on_modified cfg fs directory false src_path s
                = { cache := s.cache, triggers := s.triggers + 1 })
          ∧ (∀ content, fs src_path = DiskFile.readable content →
              on_modified cfg fs directory false src_path s
                = { cache := storeEntry s.cache (relKey directory src_path) content,
                    triggers := s.triggers + 1 }))) := by
  intro cfg fs directory src_path s
  refine ⟨fun b => rfl, fun hrel => ⟨?_, ?_, ?_⟩⟩
  · simp [on_modified, _handle_change, hrel]
  · intro habs
    simp [on_modified, _handle_change, hrel, habs]
  · intro content hread
    simp [on_modified, _handle_change, update_file, _read_and_store_file, hrel, hread]

/-- Witness for the amended C3: the vanished-path modified event triggers
once and keeps the stale entry. -/
theorem C3_modified_witness :
    on_modified ⟨[".js"], [], ["test"], [], []⟩ (fun _ => DiskFile.absent) ["r"] false
      ["r", "a.js"] ⟨[("a.js", "old")], 0⟩
      = { cache := [("a.js", "old")], triggers := 1 } :=
  ((C3_modified_amended ⟨[".js"], [], ["test"], [], []⟩ (fun _ => DiskFile.absent) ["r"]
    ["r", "a.js"] ⟨[("a.js", "old")], 0⟩).2 (by decide)).2.1 rfl

/-! ## C7: the rendered document -/

theorem foldl_marker_fence (c : Cache) :
    ∀ (l : List String) (acc : String),
      l.foldl (fun a p =>
        a ++ ("----- FILE: " ++ p ++ " -----\n")
          ++ ("```\n" ++ get_file_content c p ++ "\n```\n\n")) acc
      = acc ++ concatBlocks (l.map (fileBlock c)) := by
  intro l
  induction l with
  | nil => intro acc; simp [concatBlocks]
  | cons x xs ih =>
    intro acc
    rw [List.foldl_cons, ih, List.map_cons]
    simp only [concatBlocks, fileBlock]
    simp [String.append_assoc]

/-- C7: for every cache state, the rendered document is the two headers
followed by the concatenation, in ascending lexicographic order of relative
path, of one block per file — the marker line immediately followed by the
backtick-fenced stored content, verbatim (no escaping happens: the content
appears inside the fences exactly as stored); on the cache
`{"a.js": "x", "b/c.ts": "y"}` the `a.js` block precedes the `b/c.ts`
block. -/
theorem C7_render_sorted_blocks :
    ∀ (c : Cache) (directory : FsPath) (tree_output : String),
      generate_markdown_output c directory tree_output =
        "========== TREE OUTPUT ==========\n" ++ tree_output ++
          "\n\n========== CODE OUTPUT ==========\n\n" ++
          concatBlocks ((get_all_files_sorted c).map (fileBlock c))
      ∧ List.Sorted SLe (get_all_files_sorted c)
      ∧ get_all_files_sorted [("a.js", "x"), ("b/c.ts", "y")] = ["a.js", "b/c.ts"]
      ∧ generate_markdown_output [("a.js", "x"), ("b/c.ts", "y")] [] "TREE" =
          "========== TREE OUTPUT ==========\nTREE\n\n========== CODE OUTPUT ==========\n\n" ++
            "----- FILE: a.js -----\n```\nx\n```\n\n" ++
            "----- FILE: b/c.ts -----\n```\ny\n```\n\n" := by
  intro c directory tree_output
  refine ⟨?_, List.sorted_insertionSort SLe (c.map Prod.fst), by decide, by decide⟩
  simp only [generate_markdown_output]
  rw [foldl_marker_fence]
  simp [String.append_assoc]

/-! ## C5: debounce coalescing -/

theorem runTriggers_burst (w : Nat) :
    ∀ (rest : List Nat) (t : Nat) (F : List Nat),
      List.Chain' (fun a b => a ≤ b ∧ b < a + w) (t :: rest) →
      Debouncer.runTriggers ⟨w, some (t + w), F⟩ rest
        = ⟨w, some ((t :: rest).getLastD 0 + w), F⟩ := by
  intro rest
  induction rest with
  | nil => intro t F _; rfl
  | cons u us ih =>
    intro t F hch
    rw [List.chain'_cons] at hch
    obtain ⟨⟨htu, hlt⟩, hch'⟩ := hch
    have hstep : Debouncer.trigger ⟨w, some (t + w), F⟩ u = ⟨w, some (u + w), F⟩ := by
      simp only [Debouncer.trigger]
      rw [if_neg (by omega)]
    rw [Debouncer.runTriggers, List.foldl_cons, hstep]
    have hrec := ih u F hch'
    rw [Debouncer.runTriggers] at hrec
    rw [hrec]
    simp [List.getLastD_cons]

/-- C5: for every burst of `N ≥ 1` trigger calls in which each call comes
strictly less than `wait_time` after the previous one, every timer but the
last is cancelled before its deadline, so the callback runs exactly once,
at `wait_time` after the last call of the burst (hence never earlier than
that). -/
theorem C5_debounce_coalescing :
    ∀ (w t : Nat) (rest : List Nat),
      List.Chain' (fun a b => a ≤ b ∧ b < a + w) (t :: rest) →
      ((Debouncer.init w).runTriggers (t :: rest)).allFires
        = [(t :: rest).getLastD 0 + w]
      ∧ ((Debouncer.init w).runTriggers (t :: rest)).allFires.length = 1 := by
  intro w t rest hch
  have h0 : Debouncer.trigger (Debouncer.init w) t = ⟨w, some (t + w), []⟩ := rfl
  have hrun : (Debouncer.init w).runTriggers (t :: rest)
      = ⟨w, some ((t :: rest).getLastD 0 + w), []⟩ := by
    rw [Debouncer.runTriggers, List.foldl_cons, h0]
    exact runTriggers_burst w rest t [] hch
  rw [hrun]
  exact ⟨rfl, rfl⟩

/-- Witness for C5: three triggers at times 0, 3, 6 with delay 5 produce a
single callback, at time 11. -/
theorem C5_debounce_coalescing_witness :
    ((Debouncer.init 5).runTriggers [0, 3, 6]).allFires = [11]
    ∧ ((Debouncer.init 5).runTriggers [0, 3, 6]).allFires.length = 1 :=
  C5_debounce_coalescing 5 0 [3, 6]
    (by rw [List.chain'_cons, List.chain'_cons]
        exact ⟨by omega, by omega, List.chain'_singleton 6⟩)

/-! ## C10: SyncRepo.py throttles on the leading edge -/

/-- C10: with the configured `debounce_time` of 5 seconds, SyncRepo.py's
`on_any_event` rebuilds immediately (at the event's own time) on the first
event at least 5 seconds after the previous rebuild, discards — with no
future rebuild scheduled — every event strictly within 5 seconds of the
last rebuild, and therefore a whole burst inside the window leaves the
rebuild list untouched until some later event falls outside it. -/
theorem C10_leading_edge_throttle :
    ∀ (s : SyncRepoHandler), s.debounce_time = 5 →
      (∀ t, s.last_update + 5 ≤ t →
        s.on_any_event t = { s with last_update := t, rebuilds := s.rebuilds ++ [t] })
      ∧ (∀ t, t < s.last_update + 5 → s.on_any_event t = s)
      ∧ (∀ ts : List Nat, (∀ u ∈ ts, u < s.last_update + 5) →
          ts.foldl SyncRepoHandler.on_any_event s = s) := by
  intro s h5
  have hdiscard : ∀ t, t < s.last_update + 5 → s.on_any_event t = s := by
    intro t ht
    simp only [SyncRepoHandler.on_any_event, h5]
    rw [if_pos (by omega)]
  refine ⟨?_, hdiscard, ?_⟩
  · intro t ht
    simp only [SyncRepoHandler.on_any_event, h5]
    rw [if_neg (by omega)]
  · intro ts hts
    induction ts with
    | nil => rfl
    | cons u us ih =>
      rw [List.foldl_cons, hdiscard u (hts u (by simp))]
      exact ih (fun v hv => hts v (by simp [hv]))

/-- Witness for C10: an event 3 s after the last rebuild is dropped, one
5 s after rebuilds at once, and a burst inside the window changes nothing. -/
theorem C10_leading_edge_throttle_witness :
    (SyncRepoHandler.init 100).on_any_event 105
      = { SyncRepoHandler.init 100 with last_update := 105, rebuilds := [105] }
    ∧ (SyncRepoHandler.init 100).on_any_event 103 = SyncRepoHandler.init 100
    ∧ [101, 102, 104].foldl SyncRepoHandler.on_any_event (SyncRepoHandler.init 100)
        = SyncRepoHandler.init 100 :=
  ⟨(C10_leading_edge_throttle (SyncRepoHandler.init 100) rfl).1 105 (by decide),
   (C10_leading_edge_throttle (SyncRepoHandler.init 100) rfl).2.1 103 (by decide),
   (C10_leading_edge_throttle (SyncRepoHandler.init 100) rfl).2.2 [101, 102, 104]
     (by decide)⟩

end SyncRepo
